import Mathlib

/-!
Shallow embedding of `crates/trie/db/src/prefix_set.rs` (`PrefixSetLoader::load`).

The loader walks the `AccountChangeSets` and `StorageChangeSets` tables over an
inclusive block range, hashes the touched keys, accumulates nibble-path prefix
sets, probes the `HashedAccounts` snapshot for destroyed accounts, and freezes
the result into a `TriePrefixSets`.

Raw keys (`Address`, `StorageKey`) and digests (`B256`) are modelled as `Nat`;
database reads are modelled as `Except DatabaseError` values so that read
failures propagate exactly as `?` does in the source.
-/

namespace RethPrefixSet

/-- Block numbers (`BlockNumber` in the source). -/
abbrev BlockNumber := Nat

/-- Raw account addresses (`Address` in the source). -/
abbrev Address := Nat

/-- Raw storage slot keys (`B256` storage keys in the source). -/
abbrev StorageKey := Nat

/-- Digests (256-bit) produced by the key hasher (`B256` in the source). -/
abbrev B256 := Nat

/-- A database read error (`DatabaseError` in the source); the payload is an
unspecified error code. -/
inductive DatabaseError where
  | read (code : Nat)
deriving DecidableEq

deriving instance DecidableEq for Except

/-- The record `AccountBeforeTx`: an account-change record carries the changed address and
a prior-state payload (`info`), which `load` discards. -/
structure AccountBeforeTx where
  address : Address
  info : Option Nat
deriving DecidableEq

/-- The record `StorageEntry`: a storage-change record carries the changed slot key and a
prior-state payload (`value`), which `load` discards. -/
structure StorageEntry where
  key : StorageKey
  value : Nat
deriving DecidableEq

/-- Modelled from the spec: the pluggable `KeyHasher` capability, a pure
deterministic function from a raw key to a fixed-width digest
(`KH::hash_key`). -/
structure KeyHasher where
  hash_key : Nat → B256

/-- Modelled from the spec: `Nibbles`, a digest reinterpreted as a sequence of
4-bit symbols (`reth_trie::Nibbles`). -/
abbrev Nibbles := List Nat

/-- Modelled from the spec: `Nibbles::unpack` turns a 256-bit digest into its
64 nibbles, most significant first. -/
def Nibbles.unpack (d : B256) : Nibbles :=
  (List.range 64).map fun i => d / 16 ^ (63 - i) % 16

/-- Lexicographic comparison on nibble paths, used to order the frozen sets. -/
def nibbleLE : Nibbles → Nibbles → Bool
  | [], _ => true
  | _ :: _, [] => false
  | a :: as, b :: bs => Nat.blt a b || (a == b && nibbleLE as bs)

/-- Modelled from the spec: a mutable `PrefixSetMut` is a plain accumulation
of inserted nibble paths (`reth_trie::prefix_set::PrefixSetMut`); insertion
appends. -/
abbrev PrefixSetMut := List Nibbles

/-- Insertion, `PrefixSetMut::insert`. -/
def PrefixSetMut.insert (ps : PrefixSetMut) (n : Nibbles) : PrefixSetMut :=
  ps ++ [n]

/-- Modelled from the spec: `PrefixSetMut::freeze` produces the immutable,
sorted, deduplicated form of the accumulated paths. -/
def PrefixSetMut.freeze (ps : PrefixSetMut) : List Nibbles :=
  (ps.mergeSort nibbleLE).dedup

/-- The database transaction visible to the loader: the two change-log tables,
the hashed-account snapshot, and an error model for snapshot probes.
Change-log entries decode to `Except` values so a failed read surfaces as a
`DatabaseError` while walking, exactly as `account_entry?` / `storage_entry?`
do in the source. -/
structure Store where
  accountChangeSets : List (BlockNumber × Except DatabaseError AccountBeforeTx)
  storageChangeSets : List ((BlockNumber × Address) × Except DatabaseError StorageEntry)
  hashedAccounts : Finset B256
  probeError : B256 → Option DatabaseError

/-- Walking `AccountChangeSets` over the inclusive range `[lo, hi]` yields the
decoded record (or read error) of every entry whose block number is in
range. -/
def Store.walkAccountRange (s : Store) (lo hi : BlockNumber) :
    List (Except DatabaseError AccountBeforeTx) :=
  (s.accountChangeSets.filter fun e => decide (lo ≤ e.1 ∧ e.1 ≤ hi)).map (·.2)

/-- Walking `StorageChangeSets` over `BlockNumberAddress::range([lo, hi])` —
i.e. from `(lo, Address::ZERO)` to `(hi, Address::MAX)` — yields the changed
address together with the decoded storage entry (or read error) of every
record whose block number is in range. -/
def Store.walkStorageRange (s : Store) (lo hi : BlockNumber) :
    List (Except DatabaseError (Address × StorageEntry)) :=
  (s.storageChangeSets.filter fun e => decide (lo ≤ e.1.1 ∧ e.1.1 ≤ hi)).map
    fun e => e.2.map fun entry => (e.1.2, entry)

/-- Probing `HashedAccounts::seek_exact` on a digest: `.ok true` when the snapshot has
the account, `.ok false` when it does not, `.error` when the probe itself
fails. -/
def Store.probeHashed (s : Store) (h : B256) : Except DatabaseError Bool :=
  match s.probeError h with
  | some e => .error e
  | none => .ok (decide (h ∈ s.hashedAccounts))

/-- Draining a cursor walk: the `for … { let x = entry?; push }` loop collects
every decoded value, aborting with the first read error. -/
def collectEntries {α : Type} : List (Except DatabaseError α) →
    Except DatabaseError (List α)
  | [] => .ok []
  | .error e :: _ => .error e
  | .ok a :: rest => (collectEntries rest).map (a :: ·)

/-- The loop over `hashed_addresses`: insert each hashed address' nibble path
into the account prefix set and probe the snapshot, recording absent accounts
in `destroyed_accounts`; a probe error aborts. -/
def processAccountHashes (s : Store) :
    List (Address × B256) → PrefixSetMut → Finset B256 →
    Except DatabaseError (PrefixSetMut × Finset B256)
  | [], aps, destroyed => .ok (aps, destroyed)
  | (_, ha) :: rest, aps, destroyed =>
    match s.probeHashed ha with
    | .error e => .error e
    | .ok true => processAccountHashes s rest (aps.insert (Nibbles.unpack ha)) destroyed
    | .ok false =>
      processAccountHashes s rest (aps.insert (Nibbles.unpack ha)) (insert ha destroyed)

/-- The loop over `storage_hashes`: insert the hashed address' path into the
account prefix set and the hashed slot's path into that account's storage
prefix set (the map of storage sets is modelled extensionally as a function
that is `[]` outside its keys, matching `HashMap::entry().or_default()`). -/
def processStorageHashes :
    List (B256 × B256) → PrefixSetMut → (B256 → PrefixSetMut) →
    PrefixSetMut × (B256 → PrefixSetMut)
  | [], aps, sps => (aps, sps)
  | (ha, hk) :: rest, aps, sps =>
    processStorageHashes rest (aps.insert (Nibbles.unpack ha))
      fun h => if h = ha then (sps h).insert (Nibbles.unpack hk) else sps h

/-- Modelled from the spec: the aggregate output `TriePrefixSets` — the frozen
account-level prefix set, the map from account digest to that account's frozen
storage prefix set (extensionally: `[]` for absent keys), and the destroyed
account digests. -/
structure TriePrefixSets where
  account_prefix_set : List Nibbles
  storage_prefix_sets : B256 → List Nibbles
  destroyed_accounts : Finset B256

/-- The function `PrefixSetLoader::load`: walk the account change sets, hash the touched
addresses, build the account prefix set and destroyed-account set, walk the
storage change sets, hash the touched (address, key) pairs, extend the account
set and build the per-account storage sets, then freeze everything. -/
def load (KH : KeyHasher) (s : Store) (lo hi : BlockNumber) :
    Except DatabaseError TriePrefixSets :=
  match collectEntries (s.walkAccountRange lo hi) with
  | .error e => .error e
  | .ok recs =>
    let addresses := recs.map (·.address)
    let hashed_addresses := addresses.map fun a => (a, KH.hash_key a)
    match processAccountHashes s hashed_addresses [] ∅ with
    | .error e => .error e
    | .ok (aps, destroyed) =>
      match collectEntries (s.walkStorageRange lo hi) with
      | .error e => .error e
      | .ok sentries =>
        let storage_entries := sentries.map fun p => (p.1, p.2.key)
        let storage_hashes := storage_entries.map fun p =>
          (KH.hash_key p.1, KH.hash_key p.2)
        let out := processStorageHashes storage_hashes aps (fun _ => [])
        .ok { account_prefix_set := out.1.freeze
              storage_prefix_sets := fun h => (out.2 h).freeze
              destroyed_accounts := destroyed }

/-! ### Concrete instances used in the scenario theorems -/

/-- The identity key hasher, used to instantiate concrete scenarios. -/
def KHid : KeyHasher := ⟨fun n => n⟩

/-- Store for the range-`[1,3]` scenario: account-change records
`(block 1, addr 1)`, `(block 2, addr 1)`, `(block 3, addr 2)`; the snapshot
holds digest `1` (= `hash 1`) but not digest `2`; no storage changes. -/
def store1 : Store where
  accountChangeSets := [(1, .ok ⟨1, none⟩), (2, .ok ⟨1, none⟩), (3, .ok ⟨2, none⟩)]
  storageChangeSets := []
  hashedAccounts := {1}
  probeError := fun _ => none

/-- The expected output of loading `store1` over `[1, 3]`. -/
def result1 : TriePrefixSets where
  account_prefix_set := [Nibbles.unpack 1, Nibbles.unpack 2]
  storage_prefix_sets := fun _ => []
  destroyed_accounts := {2}

/-- Variant of `store1` with the account-change records stored in another order and with
different block numbers and prior-state payloads (all still inside `[1,3]`). -/
def store1b : Store where
  accountChangeSets := [(2, .ok ⟨1, some 5⟩), (3, .ok ⟨2, some 9⟩), (1, .ok ⟨1, none⟩)]
  storageChangeSets := []
  hashedAccounts := {1}
  probeError := fun _ => none

/-- Store for the range-`[5,5]` scenario: a single storage-change record
`(block 5, addr 3, key 7)` and no account changes; the snapshot is a
parameter. -/
def storeC (snap : Finset B256) : Store where
  accountChangeSets := []
  storageChangeSets := [((5, 3), .ok ⟨7, 0⟩)]
  hashedAccounts := snap
  probeError := fun _ => none

/-- The output of loading `storeC snap` over `[5, 5]`, for every snapshot:
account set `{nibbles 3}`, storage sets `{3 ↦ {nibbles 7}}`, nothing
destroyed. -/
def resultC : TriePrefixSets where
  account_prefix_set := [Nibbles.unpack 3]
  storage_prefix_sets := fun hd => if hd = 3 then [Nibbles.unpack 7] else []
  destroyed_accounts := ∅

/-- Variant of `store1` with the same change records delivered in a different relative
order. -/
def store1perm : Store where
  accountChangeSets := [(3, .ok ⟨2, none⟩), (1, .ok ⟨1, none⟩), (2, .ok ⟨1, none⟩)]
  storageChangeSets := []
  hashedAccounts := {1}
  probeError := fun _ => none

/-- A store whose only in-range account-change record fails to decode. -/
def storeErr : Store where
  accountChangeSets := [(1, .error (.read 7))]
  storageChangeSets := []
  hashedAccounts := ∅
  probeError := fun _ => none

/-- A store with no change records at all. -/
def storeEmpty : Store where
  accountChangeSets := []
  storageChangeSets := []
  hashedAccounts := {1}
  probeError := fun _ => none

/-! ### Order lemmas for the frozen-set canonical form -/

theorem nibbleLE_total : ∀ a b : Nibbles, nibbleLE a b || nibbleLE b a := by
  intro a
  induction a with
  | nil => intro b; simp [nibbleLE]
  | cons x xs ih =>
    intro b
    cases b with
    | nil => simp [nibbleLE]
    | cons y ys =>
      simp only [nibbleLE, Nat.blt_eq, Bool.or_eq_true, decide_eq_true_eq,
        Bool.and_eq_true, beq_iff_eq]
      rcases lt_trichotomy x y with h | h | h
      · left; left; exact h
      · subst h
        have := ih ys
        rcases Bool.or_eq_true _ _ |>.mp this with h' | h'
        · left; right; exact ⟨rfl, h'⟩
        · right; right; exact ⟨rfl, h'⟩
      · right; left; exact h

theorem nibbleLE_trans : ∀ a b c : Nibbles,
    nibbleLE a b → nibbleLE b c → nibbleLE a c := by
  intro a
  induction a with
  | nil => intro b c _ _; simp [nibbleLE]
  | cons x xs ih =>
    intro b c hab hbc
    cases b with
    | nil => simp [nibbleLE] at hab
    | cons y ys =>
      cases c with
      | nil => simp [nibbleLE] at hbc
      | cons z zs =>
        simp only [nibbleLE, Nat.blt_eq, Bool.or_eq_true, decide_eq_true_eq,
          Bool.and_eq_true, beq_iff_eq] at hab hbc ⊢
        rcases hab with h1 | ⟨rfl, h1⟩
        · rcases hbc with h2 | ⟨rfl, h2⟩
          · left; exact h1.trans h2
          · left; exact h1
        · rcases hbc with h2 | ⟨rfl, h2⟩
          · left; exact h2
          · right; exact ⟨rfl, ih ys zs h1 h2⟩

theorem nibbleLE_antisymm : ∀ a b : Nibbles,
    nibbleLE a b → nibbleLE b a → a = b := by
  intro a
  induction a with
  | nil =>
    intro b _ hba
    cases b with
    | nil => rfl
    | cons y ys => simp [nibbleLE] at hba
  | cons x xs ih =>
    intro b hab hba
    cases b with
    | nil => simp [nibbleLE] at hab
    | cons y ys =>
      simp only [nibbleLE, Nat.blt_eq, Bool.or_eq_true, decide_eq_true_eq,
        Bool.and_eq_true, beq_iff_eq] at hab hba
      rcases hab with h1 | ⟨rfl, h1⟩
      · rcases hba with h2 | ⟨h2, _⟩
        · exact absurd h1 (not_lt.mpr h2.le)
        · exact absurd h1 (by omega)
      · rcases hba with h2 | ⟨_, h2⟩
        · exact absurd h2 (by omega)
        · rw [ih ys h1 h2]

/-- Freezing is invariant under permutation of the accumulated paths. -/
theorem freeze_perm_eq {l₁ l₂ : List Nibbles} (h : l₁.Perm l₂) :
    PrefixSetMut.freeze l₁ = PrefixSetMut.freeze l₂ := by
  have p1 : (l₁.mergeSort nibbleLE).Perm (l₂.mergeSort nibbleLE) :=
    (List.mergeSort_perm l₁ nibbleLE).trans
      (h.trans (List.mergeSort_perm l₂ nibbleLE).symm)
  have d1 : ((l₁.mergeSort nibbleLE).dedup).Pairwise (fun a b => (nibbleLE a b : Prop)) :=
    List.Pairwise.sublist (List.dedup_sublist _)
      (List.sorted_mergeSort nibbleLE_trans nibbleLE_total l₁)
  have d2 : ((l₂.mergeSort nibbleLE).dedup).Pairwise (fun a b => (nibbleLE a b : Prop)) :=
    List.Pairwise.sublist (List.dedup_sublist _)
      (List.sorted_mergeSort nibbleLE_trans nibbleLE_total l₂)
  haveI : IsAntisymm Nibbles (fun a b => (nibbleLE a b : Prop)) :=
    ⟨fun a b => nibbleLE_antisymm a b⟩
  exact List.eq_of_perm_of_sorted (p1.dedup) d1 d2

/-- A path is in the frozen set iff it was inserted into the mutable set. -/
theorem mem_freeze {p : Nibbles} {l : List Nibbles} :
    p ∈ PrefixSetMut.freeze l ↔ p ∈ l := by
  unfold PrefixSetMut.freeze
  rw [List.mem_dedup]
  exact (List.mergeSort_perm l nibbleLE).mem_iff

/-- Frozen prefix sets never repeat a path. -/
theorem nodup_freeze (l : List Nibbles) : (PrefixSetMut.freeze l).Nodup :=
  List.nodup_dedup _

/-- The two lawful equality tests on nibble paths count identically. -/
theorem count_beq_bridge (p : Nibbles) (l : List Nibbles) :
    List.count p l = @List.count Nibbles instBEqOfDecidableEq p l := by
  unfold List.count
  apply List.countP_congr
  intro a _
  by_cases hx : a = p <;> simp [hx]

/-- A frozen prefix set holds each path at most once. -/
theorem count_freeze_le_one (l : List Nibbles) (p : Nibbles) :
    List.count p (PrefixSetMut.freeze l) ≤ 1 := by
  rw [count_beq_bridge]
  exact List.nodup_iff_count_le_one.mp (nodup_freeze l) p

/-! ### Characterizations of the three loops of `load` -/

theorem collectEntries_ok_iff {α : Type} :
    ∀ (l : List (Except DatabaseError α)) (as : List α),
    collectEntries l = .ok as ↔ l = as.map Except.ok := by
  intro l
  induction l with
  | nil => intro as; cases as <;> simp [collectEntries]
  | cons x rest ih =>
    intro as
    cases x with
    | error e => cases as <;> simp [collectEntries]
    | ok a =>
      cases as with
      | nil =>
        simp only [collectEntries, List.map_nil]
        constructor
        · intro h
          cases hrest : collectEntries rest <;> rw [hrest] at h <;>
            simp [Except.map] at h
        · intro h; simp at h
      | cons b bs =>
        simp only [collectEntries, List.map_cons]
        constructor
        · intro h
          cases hrest : collectEntries rest with
          | error e => rw [hrest] at h; simp [Except.map] at h
          | ok as' =>
            rw [hrest] at h
            simp only [Except.map, Except.ok.injEq, List.cons.injEq] at h
            obtain ⟨rfl, rfl⟩ := h
            rw [(ih as').mp hrest]
        · intro h
          simp only [List.cons.injEq, Except.ok.injEq] at h
          obtain ⟨rfl, hrest⟩ := h
          rw [(ih bs).mpr hrest]
          rfl

theorem collectEntries_error_mem {α : Type} :
    ∀ {l : List (Except DatabaseError α)} {e : DatabaseError},
    collectEntries l = .error e → Except.error e ∈ l := by
  intro l
  induction l with
  | nil => intro e h; simp [collectEntries] at h
  | cons x rest ih =>
    intro e h
    cases x with
    | error e' =>
      simp only [collectEntries, Except.error.injEq] at h
      subst h
      exact List.mem_cons_self _ _
    | ok a =>
      simp only [collectEntries] at h
      cases hrest : collectEntries rest <;> rw [hrest] at h <;>
        simp [Except.map] at h
      subst h
      exact List.mem_cons_of_mem _ (ih hrest)

theorem processAccountHashes_ok_iff (s : Store) :
    ∀ (hs : List (Address × B256)) (aps : PrefixSetMut) (d : Finset B256),
    (∃ out, processAccountHashes s hs aps d = .ok out) ↔
      ∀ p ∈ hs, ∃ b, s.probeHashed p.2 = .ok b := by
  intro hs
  induction hs with
  | nil => intro aps d; simp [processAccountHashes]
  | cons p rest ih =>
    intro aps d
    obtain ⟨a, ha⟩ := p
    constructor
    · intro ⟨out, hout⟩ q hq
      simp only [processAccountHashes] at hout
      cases hprobe : s.probeHashed ha <;> rw [hprobe] at hout
      · simp at hout
      · rcases List.mem_cons.mp hq with rfl | hq'
        · exact ⟨_, hprobe⟩
        · rename_i b
          cases b
          · exact ((ih _ _).mp ⟨out, hout⟩) q hq'
          · exact ((ih _ _).mp ⟨out, hout⟩) q hq'
    · intro hall
      obtain ⟨b, hb⟩ := hall (a, ha) (List.mem_cons_self _ _)
      obtain ⟨out, hout⟩ := (ih (aps.insert (Nibbles.unpack ha))
        (if b then d else insert ha d)).mpr
        (fun q hq => hall q (List.mem_cons_of_mem _ hq))
      refine ⟨out, ?_⟩
      simp only [processAccountHashes]
      rw [hb]
      cases b
      · simpa using hout
      · simpa using hout

theorem processAccountHashes_ok_spec (s : Store) :
    ∀ (hs : List (Address × B256)) (aps : PrefixSetMut) (d : Finset B256)
      (aps' : PrefixSetMut) (d' : Finset B256),
    processAccountHashes s hs aps d = .ok (aps', d') →
      aps' = aps ++ hs.map (fun p => Nibbles.unpack p.2) ∧
      d' = d ∪ ((hs.map Prod.snd).filter
        fun hh => decide (s.probeHashed hh = .ok false)).toFinset := by
  intro hs
  induction hs with
  | nil =>
    intro aps d aps' d' h
    simp only [processAccountHashes, Except.ok.injEq, Prod.mk.injEq] at h
    obtain ⟨rfl, rfl⟩ := h
    simp
  | cons p rest ih =>
    intro aps d aps' d' h
    obtain ⟨a, ha⟩ := p
    simp only [processAccountHashes] at h
    cases hprobe : s.probeHashed ha <;> rw [hprobe] at h
    · simp at h
    · rename_i b
      cases b
      · obtain ⟨h1, h2⟩ := ih _ _ _ _ h
        have hdec : (decide (s.probeHashed ha = .ok false)) = true := by
          simp [hprobe]
        constructor
        · rw [h1]; simp [PrefixSetMut.insert]
        · rw [h2]
          simp only [List.map_cons, List.filter_cons, hdec, if_pos]
          rw [List.toFinset_cons, Finset.insert_union, Finset.union_insert]
      · obtain ⟨h1, h2⟩ := ih _ _ _ _ h
        have hdec : (decide (s.probeHashed ha = .ok false)) = false := by
          simp [hprobe]
        constructor
        · rw [h1]; simp [PrefixSetMut.insert]
        · rw [h2]
          simp only [List.map_cons, List.filter_cons, hdec]
          simp

theorem processAccountHashes_error_mem (s : Store) :
    ∀ (hs : List (Address × B256)) (aps : PrefixSetMut) (d : Finset B256)
      (e : DatabaseError),
    processAccountHashes s hs aps d = .error e →
      ∃ p ∈ hs, s.probeHashed p.2 = .error e := by
  intro hs
  induction hs with
  | nil => intro aps d e h; simp [processAccountHashes] at h
  | cons p rest ih =>
    intro aps d e h
    obtain ⟨a, ha⟩ := p
    simp only [processAccountHashes] at h
    cases hprobe : s.probeHashed ha <;> rw [hprobe] at h
    · simp only [Except.error.injEq] at h
      subst h
      exact ⟨(a, ha), List.mem_cons_self _ _, hprobe⟩
    · rename_i b
      cases b
      · obtain ⟨q, hq, hqe⟩ := ih _ _ _ h
        exact ⟨q, List.mem_cons_of_mem _ hq, hqe⟩
      · obtain ⟨q, hq, hqe⟩ := ih _ _ _ h
        exact ⟨q, List.mem_cons_of_mem _ hq, hqe⟩

theorem processStorageHashes_spec :
    ∀ (hs : List (B256 × B256)) (aps : PrefixSetMut) (sps : B256 → PrefixSetMut),
    (processStorageHashes hs aps sps).1 =
        aps ++ hs.map (fun p => Nibbles.unpack p.1) ∧
      ∀ hd, (processStorageHashes hs aps sps).2 hd =
        sps hd ++ (hs.filter fun p => decide (p.1 = hd)).map
          fun p => Nibbles.unpack p.2 := by
  intro hs
  induction hs with
  | nil => intro aps sps; simp [processStorageHashes]
  | cons p rest ih =>
    intro aps sps
    obtain ⟨ha, hk⟩ := p
    obtain ⟨ih1, ih2⟩ := ih (aps.insert (Nibbles.unpack ha))
      (fun h => if h = ha then (sps h).insert (Nibbles.unpack hk) else sps h)
    constructor
    · simp only [processStorageHashes]
      rw [ih1]
      simp [PrefixSetMut.insert]
    · intro hd
      simp only [processStorageHashes]
      rw [ih2 hd]
      by_cases hcase : ha = hd
      · subst hcase
        simp [PrefixSetMut.insert, List.filter_cons]
      · have : hd ≠ ha := fun hc => hcase hc.symm
        simp [List.filter_cons, hcase, this]

/-- Forward characterization of a successful `load`: the walks were fully
readable, every snapshot probe succeeded, and each component of the result is
determined by the yielded records. -/
theorem load_ok_elim {KH : KeyHasher} {s : Store} {lo hi : BlockNumber}
    {r : TriePrefixSets} (h : load KH s lo hi = .ok r) :
    ∃ (recs : List AccountBeforeTx) (sentries : List (Address × StorageEntry)),
      s.walkAccountRange lo hi = recs.map Except.ok ∧
      s.walkStorageRange lo hi = sentries.map Except.ok ∧
      (∀ rec ∈ recs, ∃ b, s.probeHashed (KH.hash_key rec.address) = .ok b) ∧
      r.account_prefix_set = PrefixSetMut.freeze
        ((recs.map fun rec => Nibbles.unpack (KH.hash_key rec.address)) ++
          sentries.map fun p => Nibbles.unpack (KH.hash_key p.1)) ∧
      (∀ hd, r.storage_prefix_sets hd = PrefixSetMut.freeze
        (((sentries.map fun p => (KH.hash_key p.1, KH.hash_key p.2.key)).filter
            fun q => decide (q.1 = hd)).map fun q => Nibbles.unpack q.2)) ∧
      r.destroyed_accounts = ((recs.map fun rec => KH.hash_key rec.address).filter
        fun hh => decide (s.probeHashed hh = .ok false)).toFinset := by
  unfold load at h
  split at h
  · exact absurd h (by simp)
  · rename_i recs heqA
    dsimp only at h
    split at h
    · exact absurd h (by simp)
    · rename_i aps destroyed heqB
      split at h
      · exact absurd h (by simp)
      · rename_i sentries heqC
        refine ⟨recs, sentries, (collectEntries_ok_iff _ _).mp heqA,
          (collectEntries_ok_iff _ _).mp heqC, ?_, ?_, ?_, ?_⟩
        · intro rec hrec
          have hmem : (rec.address, KH.hash_key rec.address) ∈
              (recs.map (·.address)).map fun a => (a, KH.hash_key a) := by
            exact List.mem_map.mpr ⟨rec.address,
              List.mem_map.mpr ⟨rec, hrec, rfl⟩, rfl⟩
          exact ((processAccountHashes_ok_iff s _ [] ∅).mp ⟨_, heqB⟩) _ hmem
        · obtain ⟨hfst, _⟩ :=
            processAccountHashes_ok_spec s _ [] ∅ aps destroyed heqB
          obtain ⟨pfst, _⟩ := processStorageHashes_spec
            (((sentries.map fun p => (p.1, p.2.key)).map fun p =>
              (KH.hash_key p.1, KH.hash_key p.2))) aps (fun _ => [])
          have hr : r.account_prefix_set = PrefixSetMut.freeze
              (aps ++ ((sentries.map fun p => (p.1, p.2.key)).map fun p =>
                (KH.hash_key p.1, KH.hash_key p.2)).map fun q =>
                  Nibbles.unpack q.1) := by
            rw [← pfst]
            exact congrArg TriePrefixSets.account_prefix_set
              (Except.ok.inj h).symm
          rw [hr, hfst]
          simp [List.map_map, Function.comp_def]
        · intro hd
          obtain ⟨_, psnd⟩ := processStorageHashes_spec
            (((sentries.map fun p => (p.1, p.2.key)).map fun p =>
              (KH.hash_key p.1, KH.hash_key p.2))) aps (fun _ => [])
          have hr : r.storage_prefix_sets hd = PrefixSetMut.freeze
              ((fun _ => ([] : PrefixSetMut)) hd ++
                (((sentries.map fun p => (p.1, p.2.key)).map fun p =>
                  (KH.hash_key p.1, KH.hash_key p.2)).filter
                    fun q => decide (q.1 = hd)).map fun q => Nibbles.unpack q.2) := by
            rw [← psnd hd]
            exact congrArg (fun t => t.storage_prefix_sets hd)
              (Except.ok.inj h).symm
          rw [hr]
          simp [List.map_map, Function.comp_def]
        · obtain ⟨_, hsnd⟩ :=
            processAccountHashes_ok_spec s _ [] ∅ aps destroyed heqB
          have hr : r.destroyed_accounts = destroyed :=
            congrArg TriePrefixSets.destroyed_accounts (Except.ok.inj h).symm
          rw [hr, hsnd]
          simp [List.map_map, Function.comp_def]

/-- Backward characterization: readable walks and successful probes make
`load` succeed, with each component determined by the yielded records. -/
theorem load_ok_intro {KH : KeyHasher} {s : Store} {lo hi : BlockNumber}
    (recs : List AccountBeforeTx) (sentries : List (Address × StorageEntry))
    (ha : s.walkAccountRange lo hi = recs.map Except.ok)
    (hb : s.walkStorageRange lo hi = sentries.map Except.ok)
    (hp : ∀ rec ∈ recs, ∃ b, s.probeHashed (KH.hash_key rec.address) = .ok b) :
    load KH s lo hi = .ok
      { account_prefix_set := PrefixSetMut.freeze
          ((recs.map fun rec => Nibbles.unpack (KH.hash_key rec.address)) ++
            sentries.map fun p => Nibbles.unpack (KH.hash_key p.1))
        storage_prefix_sets := fun hd => PrefixSetMut.freeze
          (((sentries.map fun p => (KH.hash_key p.1, KH.hash_key p.2.key)).filter
              fun q => decide (q.1 = hd)).map fun q => Nibbles.unpack q.2)
        destroyed_accounts := ((recs.map fun rec => KH.hash_key rec.address).filter
          fun hh => decide (s.probeHashed hh = .ok false)).toFinset } := by
  have h1 : collectEntries (s.walkAccountRange lo hi) = .ok recs :=
    (collectEntries_ok_iff _ _).mpr ha
  have h2 : collectEntries (s.walkStorageRange lo hi) = .ok sentries :=
    (collectEntries_ok_iff _ _).mpr hb
  have hprobes : ∀ p ∈ (recs.map (·.address)).map fun a => (a, KH.hash_key a),
      ∃ b, s.probeHashed p.2 = .ok b := by
    intro p hp'
    obtain ⟨a, ha', rfl⟩ := List.mem_map.mp hp'
    obtain ⟨rec, hrec, rfl⟩ := List.mem_map.mp ha'
    exact hp rec hrec
  obtain ⟨out, hout⟩ :=
    (processAccountHashes_ok_iff s _ [] ∅).mpr hprobes
  obtain ⟨aps, destroyed⟩ := out
  obtain ⟨hfst, hsnd⟩ :=
    processAccountHashes_ok_spec s _ [] ∅ aps destroyed hout
  unfold load
  rw [h1]
  dsimp only
  rw [hout]
  dsimp only
  rw [h2]
  dsimp only
  obtain ⟨pfst, psnd⟩ := processStorageHashes_spec
    (((sentries.map fun p => (p.1, p.2.key)).map fun p =>
      (KH.hash_key p.1, KH.hash_key p.2))) aps (fun _ => [])
  simp only [Except.ok.injEq, TriePrefixSets.mk.injEq]
  refine ⟨?_, ?_, ?_⟩
  · rw [pfst, hfst]
    simp [List.map_map, Function.comp_def]
  · funext hd
    rw [psnd hd]
    simp [List.map_map, Function.comp_def]
  · rw [hsnd]
    simp [List.map_map, Function.comp_def]

/-! ### Walk and permutation helpers -/

theorem mem_walkAccountRange {s : Store} {lo hi b : BlockNumber}
    {x : Except DatabaseError AccountBeforeTx}
    (hmem : (b, x) ∈ s.accountChangeSets) (h1 : lo ≤ b) (h2 : b ≤ hi) :
    x ∈ s.walkAccountRange lo hi :=
  List.mem_map.mpr ⟨(b, x), List.mem_filter.mpr ⟨hmem, by simp [h1, h2]⟩, rfl⟩

theorem mem_walkStorageRange {s : Store} {lo hi b : BlockNumber} {a : Address}
    {entry : StorageEntry}
    (hmem : ((b, a), Except.ok entry) ∈ s.storageChangeSets)
    (h1 : lo ≤ b) (h2 : b ≤ hi) :
    Except.ok (a, entry) ∈ s.walkStorageRange lo hi :=
  List.mem_map.mpr ⟨((b, a), Except.ok entry),
    List.mem_filter.mpr ⟨hmem, by simp [h1, h2]⟩, rfl⟩

theorem map_ok_list_inj {α : Type} {l₁ l₂ : List α}
    (h : l₁.map (Except.ok (ε := DatabaseError)) = l₂.map Except.ok) :
    l₁ = l₂ :=
  List.map_injective_iff.mpr (fun _ _ hxy => Except.ok.inj hxy) h

theorem tps_ext {r₁ r₂ : TriePrefixSets}
    (h1 : r₁.account_prefix_set = r₂.account_prefix_set)
    (h2 : ∀ hd, r₁.storage_prefix_sets hd = r₂.storage_prefix_sets hd)
    (h3 : r₁.destroyed_accounts = r₂.destroyed_accounts) : r₁ = r₂ := by
  obtain ⟨a₁, s₁, d₁⟩ := r₁
  obtain ⟨a₂, s₂, d₂⟩ := r₂
  simp only [TriePrefixSets.mk.injEq]
  exact ⟨h1, funext h2, h3⟩

theorem perm_of_map_ok_perm {α : Type} [DecidableEq α] {l₁ l₂ : List α}
    (h : (l₁.map (Except.ok (ε := DatabaseError))).Perm (l₂.map Except.ok)) :
    l₁.Perm l₂ := by
  rw [List.perm_iff_count] at h ⊢
  intro a
  have hc := h (Except.ok a)
  rwa [List.count_map_of_injective _ _ (fun _ _ hxy => Except.ok.inj hxy),
    List.count_map_of_injective _ _ (fun _ _ hxy => Except.ok.inj hxy)] at hc

/-- Core congruence lemma: a successful load is determined by the multiset of
addresses yielded by the account-change walk, the multiset of
(address, storage key) pairs yielded by the storage-change walk, and the
snapshot probe answers — block numbers, prior-state payloads, and record
order are irrelevant. -/
theorem load_ok_congr {KH : KeyHasher} {s₁ s₂ : Store} {lo hi : BlockNumber}
    {r : TriePrefixSets}
    (hprobe : ∀ h, s₁.probeHashed h = s₂.probeHashed h)
    (recs₁ recs₂ : List AccountBeforeTx)
    (sent₁ sent₂ : List (Address × StorageEntry))
    (ha₁ : s₁.walkAccountRange lo hi = recs₁.map Except.ok)
    (ha₂ : s₂.walkAccountRange lo hi = recs₂.map Except.ok)
    (haddr : (recs₁.map (·.address)).Perm (recs₂.map (·.address)))
    (hb₁ : s₁.walkStorageRange lo hi = sent₁.map Except.ok)
    (hb₂ : s₂.walkStorageRange lo hi = sent₂.map Except.ok)
    (hpair : (sent₁.map fun p => (p.1, p.2.key)).Perm
      (sent₂.map fun p => (p.1, p.2.key)))
    (hok : load KH s₁ lo hi = .ok r) :
    load KH s₂ lo hi = .ok r := by
  obtain ⟨recs₁', sent₁', hw1, hw2, hp1, hacc, hsps, hdes⟩ := load_ok_elim hok
  have hr1 : recs₁' = recs₁ := map_ok_list_inj (ha₁ ▸ hw1).symm
  have hs1 : sent₁' = sent₁ := map_ok_list_inj (hb₁ ▸ hw2).symm
  rw [hr1] at hp1 hacc hdes
  rw [hs1] at hacc hsps
  have hp2 : ∀ rec ∈ recs₂, ∃ b, s₂.probeHashed (KH.hash_key rec.address) = .ok b := by
    intro rec hrec
    have : rec.address ∈ recs₁.map (·.address) :=
      haddr.symm.mem_iff.mp (List.mem_map.mpr ⟨rec, hrec, rfl⟩)
    obtain ⟨rec₁, hrec₁, haeq⟩ := List.mem_map.mp this
    obtain ⟨b, hb⟩ := hp1 rec₁ hrec₁
    exact ⟨b, by rw [← hprobe, ← haeq]; exact hb⟩
  have hload₂ := @load_ok_intro KH s₂ lo hi recs₂ sent₂ ha₂ hb₂ hp2
  rw [hload₂]
  have hpermA : ((recs₂.map fun rec => Nibbles.unpack (KH.hash_key rec.address)) ++
      sent₂.map fun p => Nibbles.unpack (KH.hash_key p.1)).Perm
      ((recs₁.map fun rec => Nibbles.unpack (KH.hash_key rec.address)) ++
        sent₁.map fun p => Nibbles.unpack (KH.hash_key p.1)) := by
    refine List.Perm.append ?_ ?_
    · have h1 := (haddr.map KH.hash_key).map Nibbles.unpack
      simpa [List.map_map, Function.comp_def] using h1.symm
    · have h2 := (hpair.map Prod.fst).map fun a => Nibbles.unpack (KH.hash_key a)
      simpa [List.map_map, Function.comp_def] using h2.symm
  have hpermS : (sent₂.map fun p => (KH.hash_key p.1, KH.hash_key p.2.key)).Perm
      (sent₁.map fun p => (KH.hash_key p.1, KH.hash_key p.2.key)) := by
    have h2 := hpair.map fun q => (KH.hash_key q.1, KH.hash_key q.2)
    simpa [List.map_map, Function.comp_def] using h2.symm
  refine congrArg Except.ok (tps_ext ?_ ?_ ?_)
  · show PrefixSetMut.freeze _ = r.account_prefix_set
    rw [hacc]
    exact freeze_perm_eq hpermA
  · intro hd
    show PrefixSetMut.freeze _ = r.storage_prefix_sets hd
    rw [hsps hd]
    exact freeze_perm_eq ((hpermS.filter _).map _)
  · show List.toFinset _ = r.destroyed_accounts
    rw [hdes]
    have hfilter : ((recs₂.map fun rec => KH.hash_key rec.address).filter
        fun hh => decide (s₂.probeHashed hh = .ok false)) =
        ((recs₂.map fun rec => KH.hash_key rec.address).filter
          fun hh => decide (s₁.probeHashed hh = .ok false)) :=
      List.filter_congr (fun x _ => by rw [hprobe])
    rw [hfilter]
    refine (List.toFinset_eq_of_perm _ _ ?_).symm
    have h1 := (haddr.map KH.hash_key).filter
      fun hh => decide (s₁.probeHashed hh = .ok false)
    simpa [List.map_map, Function.comp_def] using h1

/-! ### Small auxiliary facts -/

theorem freeze_nil : PrefixSetMut.freeze [] = [] := by
  simp [PrefixSetMut.freeze]

theorem probeHashed_ok_iff {s : Store} {h : B256} {b : Bool} :
    s.probeHashed h = .ok b ↔
      s.probeError h = none ∧ b = decide (h ∈ s.hashedAccounts) := by
  unfold Store.probeHashed
  cases hpe : s.probeError h <;> simp [eq_comm]

theorem of_mem_walkAccountRange {s : Store} {lo hi : BlockNumber}
    {x : Except DatabaseError AccountBeforeTx}
    (h : x ∈ s.walkAccountRange lo hi) :
    ∃ b, (b, x) ∈ s.accountChangeSets ∧ lo ≤ b ∧ b ≤ hi := by
  obtain ⟨⟨b, x'⟩, hmem, rfl⟩ := List.mem_map.mp h
  obtain ⟨htab, hrange⟩ := List.mem_filter.mp hmem
  simp only [decide_eq_true_eq] at hrange
  exact ⟨b, htab, hrange.1, hrange.2⟩

theorem eq_map_ok_of_all_ok {α : Type} :
    ∀ {l : List (Except DatabaseError α)},
    (∀ x ∈ l, ∃ a, x = Except.ok a) →
    l = (l.filterMap Except.toOption).map Except.ok := by
  intro l
  induction l with
  | nil => intro _; rfl
  | cons x rest ih =>
    intro hall
    obtain ⟨a, rfl⟩ := hall x (List.mem_cons_self _ _)
    have := ih fun y hy => hall y (List.mem_cons_of_mem _ hy)
    simp only [List.filterMap_cons, Except.toOption, List.map_cons]
    exact congrArg _ this

theorem exists_map_ok_of_perm {α : Type} [DecidableEq α]
    {l : List (Except DatabaseError α)} {as : List α}
    (h : l.Perm (as.map Except.ok)) :
    ∃ as', l = List.map Except.ok as' ∧ List.Perm as' as := by
  have hall : ∀ x ∈ l, ∃ a, x = Except.ok a := by
    intro x hx
    obtain ⟨a, _, rfl⟩ := List.mem_map.mp (h.mem_iff.mp hx)
    exact ⟨a, rfl⟩
  refine ⟨l.filterMap Except.toOption, eq_map_ok_of_all_ok hall, ?_⟩
  apply perm_of_map_ok_perm
  rw [← eq_map_ok_of_all_ok hall]
  exact h

/-! ### Evaluation of the concrete scenarios -/

theorem load_store1_eq : load KHid store1 1 3 = .ok result1 := by
  have h := @load_ok_intro KHid store1 1 3
    [⟨1, none⟩, ⟨1, none⟩, ⟨2, none⟩] [] (by rfl) (by rfl) (by decide)
  rw [h]
  refine congrArg Except.ok (tps_ext ?_ ?_ ?_)
  · show PrefixSetMut.freeze _ = result1.account_prefix_set
    rw [show (([⟨1, none⟩, ⟨1, none⟩, ⟨2, none⟩] : List AccountBeforeTx).map
        (fun rec => Nibbles.unpack (KHid.hash_key rec.address)) ++
        ([] : List (Address × StorageEntry)).map
          (fun p => Nibbles.unpack (KHid.hash_key p.1))) =
      [Nibbles.unpack 1, Nibbles.unpack 1, Nibbles.unpack 2] from rfl]
    unfold PrefixSetMut.freeze
    rw [List.mergeSort_of_sorted (by decide)]
    decide
  · intro hd
    show PrefixSetMut.freeze _ = result1.storage_prefix_sets hd
    simp [result1, PrefixSetMut.freeze]
  · show List.toFinset _ = result1.destroyed_accounts
    decide

theorem load_storeC_eq (snap : Finset B256) :
    load KHid (storeC snap) 5 5 = .ok resultC := by
  have h := @load_ok_intro KHid (storeC snap) 5 5
    [] [(3, ⟨7, 0⟩)] (by rfl) (by rfl) (by simp)
  rw [h]
  refine congrArg Except.ok (tps_ext ?_ ?_ ?_)
  · show PrefixSetMut.freeze _ = resultC.account_prefix_set
    rw [show ((([] : List AccountBeforeTx).map
        (fun rec => Nibbles.unpack (KHid.hash_key rec.address))) ++
        ([((3 : Address), (⟨7, 0⟩ : StorageEntry))].map
          (fun p => Nibbles.unpack (KHid.hash_key p.1)))) =
      [Nibbles.unpack 3] from rfl]
    unfold PrefixSetMut.freeze
    rw [List.mergeSort_singleton]
    decide
  · intro hd
    show PrefixSetMut.freeze _ = resultC.storage_prefix_sets hd
    rw [show ([((3 : Address), (⟨7, 0⟩ : StorageEntry))].map
        fun p => (KHid.hash_key p.1, KHid.hash_key p.2.key)) =
      [((3 : B256), (7 : B256))] from rfl]
    by_cases hcase : hd = 3
    · subst hcase
      rw [show (([((3 : B256), (7 : B256))].filter
          fun q => decide (q.1 = 3)).map fun q => Nibbles.unpack q.2) =
        [Nibbles.unpack 7] from rfl]
      unfold PrefixSetMut.freeze
      rw [List.mergeSort_singleton]
      decide
    · have h3 : (decide ((3 : B256) = hd)) = false :=
        decide_eq_false fun hc => hcase hc.symm
      simp [List.filter_cons, h3, resultC, hcase, freeze_nil]
  · dsimp only
    simp [resultC]

/-! ### The claims -/

/-- C1: for a load over range `[1,3]` whose account-change records are
(block 1, addr A), (block 2, addr A), (block 3, addr B), with no
storage-change records, and a hashed-account snapshot containing `hash A` but
not `hash B`, `load` returns `account_prefix_set =
{nibbles (hash A), nibbles (hash B)}`, `storage_prefix_sets = {}` and
`destroyed_accounts = {hash B}` (instantiated with A = 1, B = 2 and the
identity hasher). -/
theorem claim_c1 :
    load KHid store1 1 3 = .ok result1 ∧
    (∀ p, p ∈ result1.account_prefix_set ↔
      (p = Nibbles.unpack (KHid.hash_key 1) ∨ p = Nibbles.unpack (KHid.hash_key 2))) ∧
    (∀ hd, result1.storage_prefix_sets hd = []) ∧
    result1.destroyed_accounts = {KHid.hash_key 2} := by
  refine ⟨load_store1_eq, ?_, fun _ => rfl, by decide⟩
  intro p
  show p ∈ [Nibbles.unpack 1, Nibbles.unpack 2] ↔ _
  simp [KHid]

/-- C2: every (address, storage-key) pair yielded by an in-range
storage-change record puts `nibbles (hash address)` into the account-level
prefix set, and consequently every digest that keys a non-empty entry of
`storage_prefix_sets` has its nibble path in `account_prefix_set`. -/
theorem claim_c2 {KH : KeyHasher} {s : Store} {lo hi : BlockNumber}
    {r : TriePrefixSets} (h : load KH s lo hi = .ok r) :
    (∀ b a entry, ((b, a), Except.ok entry) ∈ s.storageChangeSets →
      lo ≤ b → b ≤ hi →
      Nibbles.unpack (KH.hash_key a) ∈ r.account_prefix_set) ∧
    (∀ hd, r.storage_prefix_sets hd ≠ [] →
      Nibbles.unpack hd ∈ r.account_prefix_set) := by
  obtain ⟨recs, sentries, hw1, hw2, _, hacc, hsps, _⟩ := load_ok_elim h
  constructor
  · intro b a entry hmem h1 h2
    have hwalk : Except.ok (a, entry) ∈ s.walkStorageRange lo hi :=
      mem_walkStorageRange hmem h1 h2
    rw [hw2] at hwalk
    obtain ⟨p, hp, hpe⟩ := List.mem_map.mp hwalk
    obtain rfl : p = (a, entry) := Except.ok.inj hpe
    rw [hacc, mem_freeze]
    exact List.mem_append_right _ (List.mem_map.mpr ⟨(a, entry), hp, rfl⟩)
  · intro hd hne
    rw [hsps hd] at hne
    have : (((sentries.map fun p => (KH.hash_key p.1, KH.hash_key p.2.key)).filter
        fun q => decide (q.1 = hd)).map fun q => Nibbles.unpack q.2) ≠ [] := by
      intro hnil
      rw [hnil, freeze_nil] at hne
      exact hne rfl
    obtain ⟨x, hx⟩ := List.exists_mem_of_ne_nil _ this
    obtain ⟨q, hq, _⟩ := List.mem_map.mp hx
    obtain ⟨hqmem, hqfst⟩ := List.mem_filter.mp hq
    simp only [decide_eq_true_eq] at hqfst
    obtain ⟨p, hp, rfl⟩ := List.mem_map.mp hqmem
    rw [hacc, mem_freeze]
    refine List.mem_append_right _ (List.mem_map.mpr ⟨p, hp, ?_⟩)
    simp only at hqfst
    rw [hqfst]

/-- C3: when the in-range account-change records touch exactly two addresses
A and B, with `hash A` present in the hashed-account snapshot and `hash B`
absent, a successful load returns `destroyed_accounts = {hash B}` exactly. -/
theorem claim_c3 {KH : KeyHasher} {s : Store} {lo hi : BlockNumber}
    {r : TriePrefixSets} {A B : Address}
    (h : load KH s lo hi = .ok r)
    (hall : ∀ b x, (b, x) ∈ s.accountChangeSets → lo ≤ b → b ≤ hi →
      ∃ rec, x = Except.ok rec ∧ (rec.address = A ∨ rec.address = B))
    (hB : ∃ b rec, (b, Except.ok rec) ∈ s.accountChangeSets ∧
      lo ≤ b ∧ b ≤ hi ∧ rec.address = B)
    (hAin : KH.hash_key A ∈ s.hashedAccounts)
    (hBout : KH.hash_key B ∉ s.hashedAccounts) :
    r.destroyed_accounts = {KH.hash_key B} := by
  obtain ⟨recs, sentries, hw1, _, hprobes, _, _, hdes⟩ := load_ok_elim h
  rw [hdes]
  apply Finset.ext
  intro x
  simp only [List.mem_toFinset, Finset.mem_singleton]
  constructor
  · intro hx
    obtain ⟨hxmem, hxpred⟩ := List.mem_filter.mp hx
    simp only [decide_eq_true_eq] at hxpred
    obtain ⟨rec, hrec, rfl⟩ := List.mem_map.mp hxmem
    have hwalk : Except.ok rec ∈ s.walkAccountRange lo hi := by
      rw [hw1]; exact List.mem_map.mpr ⟨rec, hrec, rfl⟩
    obtain ⟨b, htab, hlo, hhi⟩ := of_mem_walkAccountRange hwalk
    obtain ⟨rec', heq, hAB⟩ := hall b _ htab hlo hhi
    obtain rfl : rec = rec' := Except.ok.inj heq
    rcases hAB with hA' | hB'
    · exfalso
      rw [hA'] at hxpred
      obtain ⟨_, hfalse⟩ := probeHashed_ok_iff.mp hxpred
      rw [decide_eq_true hAin] at hfalse
      exact Bool.false_ne_true hfalse
    · rw [hB']
  · intro hx
    subst hx
    obtain ⟨b, rec, htab, hlo, hhi, haddr⟩ := hB
    have hwalk : Except.ok rec ∈ s.walkAccountRange lo hi :=
      mem_walkAccountRange htab hlo hhi
    rw [hw1] at hwalk
    have hrecmem : rec ∈ recs := by
      obtain ⟨rec', hrec', heq⟩ := List.mem_map.mp hwalk
      exact (Except.ok.inj heq) ▸ hrec'
    refine List.mem_filter.mpr ⟨List.mem_map.mpr ⟨rec, hrecmem, by rw [haddr]⟩, ?_⟩
    obtain ⟨bb, hbb⟩ := hprobes rec hrecmem
    obtain ⟨hnone, _⟩ := probeHashed_ok_iff.mp hbb
    rw [haddr] at hnone
    simp only [decide_eq_true_eq]
    rw [probeHashed_ok_iff]
    exact ⟨hnone, by rw [decide_eq_false hBout]⟩

/-- C4: if any store read performed by the load fails — an account change-log
entry, a storage change-log entry, or a snapshot probe of a changed account's
digest — then `load` returns an error and never returns a `TriePrefixSets`. -/
theorem claim_c4 {KH : KeyHasher} {s : Store} {lo hi : BlockNumber}
    (hfail : (∃ e, Except.error e ∈ s.walkAccountRange lo hi) ∨
      (∃ rec, Except.ok rec ∈ s.walkAccountRange lo hi ∧
        ∃ e, s.probeHashed (KH.hash_key rec.address) = .error e) ∨
      (∃ e, Except.error e ∈ s.walkStorageRange lo hi)) :
    (∃ e, load KH s lo hi = .error e) ∧
    (∀ r, load KH s lo hi ≠ .ok r) ∧
    (∀ e, load KH s lo hi = .error e →
      Except.error e ∈ s.walkAccountRange lo hi ∨
      (∃ rec, Except.ok rec ∈ s.walkAccountRange lo hi ∧
        s.probeHashed (KH.hash_key rec.address) = .error e) ∨
      Except.error e ∈ s.walkStorageRange lo hi) := by
  have hprov : ∀ e, load KH s lo hi = .error e →
      Except.error e ∈ s.walkAccountRange lo hi ∨
      (∃ rec, Except.ok rec ∈ s.walkAccountRange lo hi ∧
        s.probeHashed (KH.hash_key rec.address) = .error e) ∨
      Except.error e ∈ s.walkStorageRange lo hi := by
    intro e hx
    unfold load at hx
    split at hx
    · rename_i e₀ heq
      obtain rfl : e₀ = e := Except.error.inj hx
      exact Or.inl (collectEntries_error_mem heq)
    · rename_i recs heq
      dsimp only at hx
      split at hx
      · rename_i e₀ heq2
        obtain rfl : e₀ = e := Except.error.inj hx
        obtain ⟨p, hp, hpe⟩ := processAccountHashes_error_mem s _ _ _ _ heq2
        obtain ⟨a, hamem, rfl⟩ := List.mem_map.mp hp
        obtain ⟨rec, hrec, rfl⟩ := List.mem_map.mp hamem
        have hwalk : Except.ok rec ∈ s.walkAccountRange lo hi := by
          rw [(collectEntries_ok_iff _ _).mp heq]
          exact List.mem_map.mpr ⟨rec, hrec, rfl⟩
        exact Or.inr (Or.inl ⟨rec, hwalk, hpe⟩)
      · rename_i aps destroyed heq2
        split at hx
        · rename_i e₀ heq3
          obtain rfl : e₀ = e := Except.error.inj hx
          exact Or.inr (Or.inr (collectEntries_error_mem heq3))
        · exact absurd hx (by simp)
  have hnotok : ∀ r, load KH s lo hi ≠ .ok r := by
    intro r hok
    obtain ⟨recs, sentries, hw1, hw2, hprobes, _, _, _⟩ := load_ok_elim hok
    rcases hfail with ⟨e, he⟩ | ⟨rec, hrec, e, he⟩ | ⟨e, he⟩
    · rw [hw1] at he
      obtain ⟨_, _, heq⟩ := List.mem_map.mp he
      exact Except.noConfusion heq
    · rw [hw1] at hrec
      obtain ⟨rec', hrec', heq⟩ := List.mem_map.mp hrec
      obtain ⟨b, hb⟩ := hprobes rec' hrec'
      rw [Except.ok.inj heq] at hb
      rw [hb] at he
      exact Except.noConfusion he
    · rw [hw2] at he
      obtain ⟨_, _, heq⟩ := List.mem_map.mp he
      exact Except.noConfusion heq
  refine ⟨?_, hnotok, hprov⟩
  cases hload : load KH s lo hi with
  | error e => exact ⟨e, rfl⟩
  | ok r => exact absurd hload (hnotok r)

/-- Witness for C2 at the storage-only concrete store. -/
theorem claim_c2_witness :
    Nibbles.unpack (KHid.hash_key 3) ∈ resultC.account_prefix_set ∧
    Nibbles.unpack 3 ∈ resultC.account_prefix_set :=
  ⟨(claim_c2 (load_storeC_eq ∅)).1 5 3 ⟨7, 0⟩ (by decide) (by decide) (by decide),
    (claim_c2 (load_storeC_eq ∅)).2 3 (by decide)⟩

/-- Witness for C3 at the concrete two-account store. -/
theorem claim_c3_witness :
    result1.destroyed_accounts = {KHid.hash_key 2} := by
  refine @claim_c3 KHid store1 1 3 result1 1 2 load_store1_eq ?_ ?_ (by decide) (by decide)
  · intro b x hmem h1 h2
    simp only [store1, List.mem_cons, List.not_mem_nil, or_false,
      Prod.mk.injEq] at hmem
    rcases hmem with ⟨rfl, rfl⟩ | ⟨rfl, rfl⟩ | ⟨rfl, rfl⟩
    · exact ⟨⟨1, none⟩, rfl, Or.inl rfl⟩
    · exact ⟨⟨1, none⟩, rfl, Or.inl rfl⟩
    · exact ⟨⟨2, none⟩, rfl, Or.inr rfl⟩
  · exact ⟨3, ⟨2, none⟩, by decide, by decide, by decide, rfl⟩

/-- Witness for C4 at the store with an unreadable account-change record. -/
theorem claim_c4_witness : load KHid storeErr 1 3 ≠ .ok result1 :=
  (claim_c4 (Or.inl ⟨.read 7, by decide⟩)).2.1 result1

/-- C5, counterexample: at the storage-only store with `hash C = 3` absent
from the snapshot, the claim "destroyed_accounts contains hash C iff hash C is
absent from the snapshot" fails — the load succeeds with an empty
destroyed-account set even though `hash C` is absent. -/
theorem claim_c5_counterexample :
    ¬ (∀ r, load KHid (storeC ∅) 5 5 = .ok r →
      (KHid.hash_key 3 ∈ r.destroyed_accounts ↔
        KHid.hash_key 3 ∉ (storeC ∅).hashedAccounts)) := by
  intro hcl
  have h := hcl resultC (load_storeC_eq ∅)
  simp [resultC, storeC, KHid] at h

/-- C5, amended: for a load over range `[5,5]` whose only change record is the
storage-change record (block 5, addr C, key K1), the result has
`account_prefix_set = {nibbles (hash C)}`,
`storage_prefix_sets = {hash C ↦ {nibbles (hash K1)}}`, and
`destroyed_accounts = ∅` whatever the snapshot contains — the snapshot is
never probed, because the destroyed-account check runs only in the
account-change branch (instantiated with C = 3, K1 = 7 and the identity
hasher). -/
theorem claim_c5_amended (snap : Finset B256) :
    load KHid (storeC snap) 5 5 = .ok resultC ∧
    (∀ p, p ∈ resultC.account_prefix_set ↔ p = Nibbles.unpack (KHid.hash_key 3)) ∧
    resultC.storage_prefix_sets (KHid.hash_key 3) =
      [Nibbles.unpack (KHid.hash_key 7)] ∧
    (∀ hd, hd ≠ KHid.hash_key 3 → resultC.storage_prefix_sets hd = []) ∧
    resultC.destroyed_accounts = ∅ := by
  refine ⟨load_storeC_eq snap, ?_, rfl, ?_, rfl⟩
  · intro p
    show p ∈ [Nibbles.unpack 3] ↔ _
    simp [KHid]
  · intro hd hne
    show (if hd = 3 then [Nibbles.unpack 7] else []) = []
    exact if_neg hne

/-- Witness for the amended C5 at the empty snapshot. -/
theorem claim_c5_witness :
    load KHid (storeC ∅) 5 5 = .ok resultC ∧
    resultC.storage_prefix_sets 4 = [] :=
  ⟨(claim_c5_amended ∅).1, (claim_c5_amended ∅).2.2.2.1 4 (by decide)⟩

/-- C6: the snapshot check runs only in the account-change branch, so every
digest in `destroyed_accounts` is the hash of an address carried by some
in-range account-change record; an account touched only by storage-change
records is never marked destroyed. -/
theorem claim_c6 {KH : KeyHasher} {s : Store} {lo hi : BlockNumber}
    {r : TriePrefixSets} (h : load KH s lo hi = .ok r) :
    ∀ hd ∈ r.destroyed_accounts, ∃ b rec,
      (b, Except.ok rec) ∈ s.accountChangeSets ∧ lo ≤ b ∧ b ≤ hi ∧
      KH.hash_key rec.address = hd := by
  obtain ⟨recs, sentries, hw1, _, _, _, _, hdes⟩ := load_ok_elim h
  intro hd hmem
  rw [hdes] at hmem
  obtain ⟨hmem', _⟩ := List.mem_filter.mp (List.mem_toFinset.mp hmem)
  obtain ⟨rec, hrec, rfl⟩ := List.mem_map.mp hmem'
  have hwalk : Except.ok rec ∈ s.walkAccountRange lo hi := by
    rw [hw1]; exact List.mem_map.mpr ⟨rec, hrec, rfl⟩
  obtain ⟨b, htab, hlo, hhi⟩ := of_mem_walkAccountRange hwalk
  exact ⟨b, rec, htab, hlo, hhi, rfl⟩

/-- Witness for C6 at the concrete two-account store. -/
theorem claim_c6_witness : ∃ b rec,
    (b, Except.ok rec) ∈ store1.accountChangeSets ∧ 1 ≤ b ∧ b ≤ 3 ∧
    KHid.hash_key rec.address = 2 :=
  claim_c6 load_store1_eq 2 (by decide)

/-- C7: duplicate insertions are idempotent — an address carried by account
change records of two different in-range blocks has its nibble path exactly
once in the frozen account-level set, and no nibble path ever appears more
than once in any frozen prefix set of the result. -/
theorem claim_c7 {KH : KeyHasher} {s : Store} {lo hi : BlockNumber}
    {r : TriePrefixSets} {A : Address} {b₁ b₂ : BlockNumber}
    {rec₁ rec₂ : AccountBeforeTx}
    (h : load KH s lo hi = .ok r)
    (h₁ : (b₁, Except.ok rec₁) ∈ s.accountChangeSets)
    (h₁lo : lo ≤ b₁) (h₁hi : b₁ ≤ hi)
    (_h₂ : (b₂, Except.ok rec₂) ∈ s.accountChangeSets)
    (_h₂lo : lo ≤ b₂) (_h₂hi : b₂ ≤ hi)
    (_hne : b₁ ≠ b₂) (ha₁ : rec₁.address = A) (_ha₂ : rec₂.address = A) :
    List.count (Nibbles.unpack (KH.hash_key A)) r.account_prefix_set = 1 ∧
    (∀ p, List.count p r.account_prefix_set ≤ 1) ∧
    (∀ hd p, List.count p (r.storage_prefix_sets hd) ≤ 1) := by
  obtain ⟨recs, sentries, hw1, _, _, hacc, hsps, _⟩ := load_ok_elim h
  have hle1 : ∀ p, List.count p r.account_prefix_set ≤ 1 := by
    intro p
    rw [hacc]
    exact count_freeze_le_one _ p
  refine ⟨?_, hle1, ?_⟩
  · have hmem : Nibbles.unpack (KH.hash_key A) ∈ r.account_prefix_set := by
      have hwalk : Except.ok rec₁ ∈ s.walkAccountRange lo hi :=
        mem_walkAccountRange h₁ h₁lo h₁hi
      rw [hw1] at hwalk
      obtain ⟨rec', hrec', heq⟩ := List.mem_map.mp hwalk
      rw [hacc, mem_freeze]
      refine List.mem_append_left _ (List.mem_map.mpr ⟨rec', hrec', ?_⟩)
      rw [Except.ok.inj heq, ha₁]
    have hpos := List.count_pos_iff.mpr hmem
    have hle := hle1 (Nibbles.unpack (KH.hash_key A))
    omega
  · intro hd p
    rw [hsps hd]
    exact count_freeze_le_one _ p

/-- Witness for C7 at the concrete two-account store (address 1 is touched in
blocks 1 and 2). -/
theorem claim_c7_witness :
    List.count (Nibbles.unpack (KHid.hash_key 1)) result1.account_prefix_set = 1 ∧
    List.count (Nibbles.unpack 2) result1.account_prefix_set ≤ 1 ∧
    List.count (Nibbles.unpack 7) (result1.storage_prefix_sets 3) ≤ 1 := by
  have h := @claim_c7 KHid store1 1 3 result1 1 1 2 ⟨1, none⟩ ⟨1, none⟩
    load_store1_eq
    (by decide) (by decide) (by decide) (by decide) (by decide) (by decide)
    (by decide) rfl rfl
  exact ⟨h.1, h.2.1 (Nibbles.unpack 2), h.2.2 3 (Nibbles.unpack 7)⟩

/-- C8: a block range containing no account-change and no storage-change
records loads to a `TriePrefixSets` whose account set, storage map and
destroyed set are all empty. -/
theorem claim_c8 {KH : KeyHasher} {s : Store} {lo hi : BlockNumber}
    (ha : s.walkAccountRange lo hi = [])
    (hb : s.walkStorageRange lo hi = []) :
    load KH s lo hi = .ok ⟨[], fun _ => [], ∅⟩ := by
  have h := @load_ok_intro KH s lo hi [] []
    (by simpa using ha) (by simpa using hb) (by simp)
  rw [h]
  refine congrArg Except.ok (tps_ext ?_ ?_ ?_)
  · show PrefixSetMut.freeze _ = _
    simp [freeze_nil]
  · intro hd
    show PrefixSetMut.freeze _ = _
    simp [freeze_nil]
  · show List.toFinset _ = _
    simp

/-- Witness for C8 at a store with no change records at all. -/
theorem claim_c8_witness :
    load KHid storeEmpty 1 3 = .ok ⟨[], fun _ => [], ∅⟩ :=
  claim_c8 (by rfl) (by rfl)

/-- C9: `load` is deterministic and order-insensitive — against the same
snapshot and probe behaviour, delivering the change-log records of either
branch in any other relative order yields the identical successful
`TriePrefixSets` (the parallel digest stage is a pure map, so its thread
split cannot affect the collected digests). -/
theorem claim_c9 {KH : KeyHasher} {s₁ s₂ : Store} {lo hi : BlockNumber}
    {r : TriePrefixSets}
    (hacc : s₁.accountChangeSets.Perm s₂.accountChangeSets)
    (hsto : s₁.storageChangeSets.Perm s₂.storageChangeSets)
    (hsnap : s₁.hashedAccounts = s₂.hashedAccounts)
    (herr : s₁.probeError = s₂.probeError)
    (h₁ : load KH s₁ lo hi = .ok r) :
    load KH s₂ lo hi = .ok r := by
  have hprobe : ∀ h, s₁.probeHashed h = s₂.probeHashed h := by
    intro h
    unfold Store.probeHashed
    rw [hsnap, herr]
  obtain ⟨recs₁, sent₁, hw1, hw2, _, _, _, _⟩ := load_ok_elim h₁
  have hwalkA : (s₂.walkAccountRange lo hi).Perm (recs₁.map Except.ok) := by
    rw [← hw1]
    exact (((hacc.filter _).map _).symm :)
  have hwalkS : (s₂.walkStorageRange lo hi).Perm (sent₁.map Except.ok) := by
    rw [← hw2]
    exact (((hsto.filter _).map _).symm :)
  obtain ⟨recs₂, hw1', hpermA⟩ := exists_map_ok_of_perm hwalkA
  obtain ⟨sent₂, hw2', hpermS⟩ := exists_map_ok_of_perm hwalkS
  exact load_ok_congr hprobe recs₁ recs₂ sent₁ sent₂ hw1 hw1'
    (hpermA.map (·.address)).symm hw2 hw2'
    (hpermS.map fun p => (p.1, p.2.key)).symm h₁

/-- C10: a successful load depends only on the multiset of addresses yielded
by in-range account-change records, the multiset of (address, storage-key)
pairs yielded by in-range storage-change records, and the snapshot probe
answers; block numbers and prior-state payloads of the records are
irrelevant. -/
theorem claim_c10 {KH : KeyHasher} {s₁ s₂ : Store} {lo hi : BlockNumber}
    {r : TriePrefixSets}
    (recs₁ recs₂ : List AccountBeforeTx)
    (sent₁ sent₂ : List (Address × StorageEntry))
    (ha₁ : s₁.walkAccountRange lo hi = recs₁.map Except.ok)
    (ha₂ : s₂.walkAccountRange lo hi = recs₂.map Except.ok)
    (haddr : (recs₁.map (·.address)).Perm (recs₂.map (·.address)))
    (hb₁ : s₁.walkStorageRange lo hi = sent₁.map Except.ok)
    (hb₂ : s₂.walkStorageRange lo hi = sent₂.map Except.ok)
    (hpair : (sent₁.map fun p => (p.1, p.2.key)).Perm
      (sent₂.map fun p => (p.1, p.2.key)))
    (hsnap : ∀ h, s₁.probeHashed h = s₂.probeHashed h)
    (h₁ : load KH s₁ lo hi = .ok r) :
    load KH s₂ lo hi = .ok r :=
  load_ok_congr hsnap recs₁ recs₂ sent₁ sent₂ ha₁ ha₂ haddr hb₁ hb₂ hpair h₁

/-- Witness for C9: reordering the account-change records of the concrete
two-account store leaves the result unchanged. -/
theorem claim_c9_witness : load KHid store1perm 1 3 = .ok result1 :=
  @claim_c9 KHid store1 store1perm 1 3 result1
    (by decide) (by decide) (by decide) rfl load_store1_eq

/-- Witness for C10: changing block numbers (within range), payloads and
order of the records of the concrete two-account store leaves the result
unchanged. -/
theorem claim_c10_witness : load KHid store1b 1 3 = .ok result1 :=
  @claim_c10 KHid store1 store1b 1 3 result1
    [⟨1, none⟩, ⟨1, none⟩, ⟨2, none⟩]
    [⟨1, some 5⟩, ⟨2, some 9⟩, ⟨1, none⟩] [] []
    rfl rfl (by decide) rfl rfl (by decide) (fun _ => rfl) load_store1_eq

end RethPrefixSet
